import Mathlib

/-!
Shallow embedding of `src/glob/mod.rs` from the hapolicy repository.

A Rust `&str` is modelled as the list of its Unicode scalar values
(`List Char`); the UTF-8 byte structure that Rust's byte-indexed slicing
`&s[1..]` sees is recovered through `Char.utf8Size`.  Rust operations that
can panic — slicing a string at a byte position that is not a character
boundary — are modelled in `Option`: `none` is a panic, `some b` a normal
boolean return; `||` and `&&` short-circuit exactly as in Rust, and a panic
in an evaluated operand propagates outward.
-/

namespace Hapolicy

/-- A Rust string slice, as its sequence of Unicode scalar values. -/
abbrev Str := List Char

/-- `s.len()` in Rust: the UTF-8 byte length of the string. -/
def byteLen (s : Str) : Nat := (s.map Char.utf8Size).sum

/-- `matches_glob` from `src/glob/mod.rs`.  The emptiness tests
`pattern.len() == 0` / `candidate.len() == 0` are byte-length tests, and a
string has byte length 0 exactly when its character list is empty
(theorem `byteLen_eq_zero` below), so they appear here as matches on `[]`.
`pattern.chars().nth(0).unwrap()` is the head character.  Each recursive
call slices with `&s[1..]`, a *byte* slice: it removes the head character
when that character occupies exactly one byte, and panics (`none`) when
byte index 1 falls inside a multi-byte head character; the slice of the
pattern in the wildcard branch cannot panic because `'*'` is a one-byte
character. -/
def matches_glob : Str → Str → Option Bool
  | [], candidate => some (decide (candidate = []))
  | p0 :: prest, [] => some (decide (p0 :: prest = ['*']))
  | p0 :: prest, c0 :: crest =>
    if p0 = '*' then
      -- matches_glob(&pattern[1..], candidate) || matches_glob(pattern, &candidate[1..])
      match matches_glob prest (c0 :: crest) with
      | none => none
      | some true => some true
      | some false =>
        -- `&candidate[1..]`
        if c0.utf8Size = 1 then matches_glob (p0 :: prest) crest else none
    else if p0 = c0 then
      -- `&pattern[1..]` and `&candidate[1..]`, evaluated in this order
      if p0.utf8Size = 1 then
        if c0.utf8Size = 1 then matches_glob prest crest else none
      else none
    else
      some false
termination_by p c => p.length + c.length
decreasing_by all_goals (simp only [List.length_cons]; omega)

/-- `matches_segments` from `src/glob/mod.rs`.  Slicing a `&[&str]` with
`[1..]` is element-level and never panics; the only panic source is the
call to `matches_glob`.  `pattern[0].contains("*")` is membership of the
one-byte character `'*'`, and `pattern[0] == "**"` is equality with the
two-character string `"**"`. -/
def matches_segments : List Str → List Str → Option Bool
  | [], candidate => some (decide (candidate = []))
  | p0 :: prest, [] => some (decide (prest = [] ∧ p0 = ['*', '*']))
  | p0 :: prest, c0 :: crest =>
    if p0 = ['*', '*'] then
      -- matches_segments(&pattern[1..], candidate) || matches_segments(pattern, &candidate[1..])
      match matches_segments prest (c0 :: crest) with
      | none => none
      | some true => some true
      | some false => matches_segments (p0 :: prest) crest
    else if '*' ∈ p0 then
      -- matches_glob(pattern[0], candidate[0]) && matches_segments(&pattern[1..], &candidate[1..])
      match matches_glob p0 c0 with
      | none => none
      | some false => some false
      | some true => matches_segments prest crest
    else if p0 = c0 then
      matches_segments prest crest
    else
      some false
termination_by p c => p.length + c.length
decreasing_by all_goals (simp only [List.length_cons]; omega)

/-- One step of Rust's `str::split`: remove the separator from the front of
the string, or fail (`none`) when the string does not start with it. -/
def chopSep : Str → Str → Option Str
  | [], s => some s
  | _ :: _, [] => none
  | a :: xs, b :: ys => if a = b then chopSep xs ys else none

/-- The scanning loop of Rust's `str::split` for a non-empty separator
`s0 :: srest`: split at each leftmost non-overlapping occurrence of the
separator, the current (not yet terminated) segment being accumulated in
reverse in `acc`. -/
def splitGo (s0 : Char) (srest : Str) (acc : Str) : Str → List Str
  | [] => [acc.reverse]
  | c :: rest =>
    match h : chopSep (s0 :: srest) (c :: rest) with
    | some rem => acc.reverse :: splitGo s0 srest [] rem
    | none => splitGo s0 srest (c :: acc) rest
termination_by s => s.length
decreasing_by
  · have key : ∀ (xs ys r : Str), chopSep xs ys = some r → ys.length = xs.length + r.length := by
      intro xs
      induction xs with
      | nil =>
        intro ys r hch
        simp only [chopSep, Option.some.injEq] at hch
        simp [hch]
      | cons a as ih =>
        intro ys r hch
        cases ys with
        | nil => simp [chopSep] at hch
        | cons b bs =>
          simp only [chopSep] at hch
          split at hch
          · have := ih bs r hch
            simp only [List.length_cons, this]
            omega
          · simp at hch
    have hlen := key _ _ _ h
    simp only [List.length_cons] at hlen ⊢
    omega
  · simp

/-- The segmentation each argument of `matches` undergoes: the source
matches on the separator, an empty separator yielding the one-element
vector `vec!(s)` and a non-empty one `s.split(sep).collect()`. -/
def segmentsOf (sep s : Str) : List Str :=
  match sep with
  | [] => [s]
  | s0 :: srest => splitGo s0 srest [] s

/-- `matches` from `src/glob/mod.rs`: segment the pattern and the candidate
with the separator and run the segment matcher. -/
def «matches» (pattern candidate sep : Str) : Option Bool :=
  matches_segments (segmentsOf sep pattern) (segmentsOf sep candidate)

/-- Joins segments back with the separator: the inverse direction used to
state that splitting preserves order and empty segments. -/
def joinSep (sep : Str) : List Str → Str
  | [] => []
  | [s] => s
  | s :: rest => s ++ sep ++ joinSep sep rest

/-- All characters of the string are one-byte (ASCII) characters, so Rust's
byte-indexed slicing can never hit a character-boundary panic on it. -/
abbrev OneByte (s : Str) : Prop := ∀ ch ∈ s, ch.utf8Size = 1

/-- Fuel-bounded variant of `matches_glob`, structurally recursive on the
fuel: the outer `none` means the fuel ran out, `some r` that the recursion
finished with result `r` (itself `none` on a panic).  Used to state that the
recursion of the character matcher terminates within combined-remainder-
length many steps. -/
def matchesGlobFuel : Nat → Str → Str → Option (Option Bool)
  | 0, _, _ => none
  | fuel + 1, pat, cand =>
    match pat, cand with
    | [], candidate => some (some (decide (candidate = [])))
    | p0 :: prest, [] => some (some (decide (p0 :: prest = ['*'])))
    | p0 :: prest, c0 :: crest =>
      if p0 = '*' then
        match matchesGlobFuel fuel prest (c0 :: crest) with
        | none => none
        | some none => some none
        | some (some true) => some (some true)
        | some (some false) =>
          if c0.utf8Size = 1 then matchesGlobFuel fuel (p0 :: prest) crest else some none
      else if p0 = c0 then
        if p0.utf8Size = 1 then
          if c0.utf8Size = 1 then matchesGlobFuel fuel prest crest else some none
        else some none
      else
        some (some false)

/-- Fuel-bounded variant of `matches_segments`, structurally recursive on
the fuel, with the same reading of the two `Option` layers as
`matchesGlobFuel`. -/
def matchesSegmentsFuel : Nat → List Str → List Str → Option (Option Bool)
  | 0, _, _ => none
  | fuel + 1, pat, cand =>
    match pat, cand with
    | [], candidate => some (some (decide (candidate = [])))
    | p0 :: prest, [] => some (some (decide (prest = [] ∧ p0 = ['*', '*'])))
    | p0 :: prest, c0 :: crest =>
      if p0 = ['*', '*'] then
        match matchesSegmentsFuel fuel prest (c0 :: crest) with
        | none => none
        | some none => some none
        | some (some true) => some (some true)
        | some (some false) => matchesSegmentsFuel fuel (p0 :: prest) crest
      else if '*' ∈ p0 then
        match matches_glob p0 c0 with
        | none => some none
        | some false => some (some false)
        | some true => matchesSegmentsFuel fuel prest crest
      else if p0 = c0 then
        matchesSegmentsFuel fuel prest crest
      else
        some (some false)

/-! ### Basic facts about the embedding of strings -/

/-- A Rust string has byte length 0 exactly when it has no characters:
every Unicode scalar value occupies at least one UTF-8 byte.  This justifies
rendering the `len() == 0` tests of the source as matches on `[]`. -/
theorem byteLen_eq_zero (s : Str) : byteLen s = 0 ↔ s = [] := by
  cases s with
  | nil => simp [byteLen]
  | cons c rest =>
    simp only [byteLen, List.map_cons, List.sum_cons]
    have := Char.utf8Size_pos c
    constructor
    · intro h; omega
    · intro h; simp at h

/-! ### Facts about the segmenter -/

/-- When `chopSep` succeeds, the input was the separator followed by the
remainder. -/
theorem chopSep_eq_append : ∀ (sep s r : Str), chopSep sep s = some r → s = sep ++ r := by
  intro sep
  induction sep with
  | nil =>
    intro s r h
    simpa [chopSep] using h
  | cons a xs ih =>
    intro s r h
    cases s with
    | nil => simp [chopSep] at h
    | cons b ys =>
      simp only [chopSep] at h
      split at h
      · next hab => simp [hab, ih ys r h]
      · exact absurd h (by simp)

/-- `chopSep` succeeds on any string that starts with the separator. -/
theorem chopSep_self_append : ∀ (sep s : Str), chopSep sep (sep ++ s) = some s := by
  intro sep
  induction sep with
  | nil => intro s; simp [chopSep]
  | cons a xs ih => intro s; simp [chopSep, ih]

/-- Unfolding `splitGo` on the empty string. -/
theorem splitGo_nil (s0 : Char) (srest acc : Str) :
    splitGo s0 srest acc [] = [acc.reverse] := by
  simp [splitGo]

/-- Unfolding `splitGo` when the separator occurs at the current position. -/
theorem splitGo_cons_some (s0 : Char) (srest acc : Str) (c : Char) (rest rem : Str)
    (h : chopSep (s0 :: srest) (c :: rest) = some rem) :
    splitGo s0 srest acc (c :: rest) = acc.reverse :: splitGo s0 srest [] rem := by
  rw [splitGo]
  split
  · next rem2 h2 => rw [h] at h2; injection h2 with h3; rw [h3]
  · next h2 => rw [h] at h2; exact absurd h2 (by simp)

/-- Unfolding `splitGo` when the separator does not occur at the current
position. -/
theorem splitGo_cons_none (s0 : Char) (srest acc : Str) (c : Char) (rest : Str)
    (h : chopSep (s0 :: srest) (c :: rest) = none) :
    splitGo s0 srest acc (c :: rest) = splitGo s0 srest (c :: acc) rest := by
  rw [splitGo]
  split
  · next rem2 h2 => rw [h] at h2; exact absurd h2 (by simp)
  · rfl

/-- The split of a string is never the empty sequence of segments. -/
theorem splitGo_ne_nil (s0 : Char) (srest : Str) :
    ∀ (acc s : Str), splitGo s0 srest acc s ≠ [] := by
  intro acc s
  induction acc, s using splitGo.induct s0 srest with
  | case1 acc => simp [splitGo_nil]
  | case2 acc c rest rem h ih => simp [splitGo_cons_some _ _ _ _ _ _ h]
  | case3 acc c rest h ih => rw [splitGo_cons_none _ _ _ _ _ h]; exact ih

/-- `joinSep` on a sequence with at least two segments. -/
theorem joinSep_cons (sep a : Str) (l : List Str) (h : l ≠ []) :
    joinSep sep (a :: l) = a ++ sep ++ joinSep sep l := by
  cases l with
  | nil => exact absurd rfl h
  | cons b rest => rfl

/-- Joining the segments produced by `splitGo` with the separator restores
the scanned string (behind the accumulated segment `acc`): splitting loses
no characters and keeps segments in order. -/
theorem splitGo_join (s0 : Char) (srest : Str) :
    ∀ (acc s : Str), joinSep (s0 :: srest) (splitGo s0 srest acc s) = acc.reverse ++ s := by
  intro acc s
  induction acc, s using splitGo.induct s0 srest with
  | case1 acc => simp [splitGo_nil, joinSep]
  | case2 acc c rest rem h ih =>
    rw [splitGo_cons_some _ _ _ _ _ _ h,
      joinSep_cons _ _ _ (splitGo_ne_nil s0 srest [] rem), ih,
      chopSep_eq_append _ _ _ h]
    simp
  | case3 acc c rest h ih =>
    rw [splitGo_cons_none _ _ _ _ _ h, ih]
    simp

/-- Every character of every segment produced by `splitGo` comes from the
accumulator or from the scanned string. -/
theorem splitGo_chars (s0 : Char) (srest : Str) :
    ∀ (acc s seg : Str), seg ∈ splitGo s0 srest acc s → ∀ ch ∈ seg, ch ∈ acc ∨ ch ∈ s := by
  intro acc s
  induction acc, s using splitGo.induct s0 srest with
  | case1 acc =>
    intro seg hseg ch hch
    simp only [splitGo_nil, List.mem_singleton] at hseg
    subst hseg
    exact Or.inl (List.mem_reverse.mp hch)
  | case2 acc c rest rem h ih =>
    intro seg hseg ch hch
    rw [splitGo_cons_some _ _ _ _ _ _ h] at hseg
    rcases List.mem_cons.mp hseg with h1 | h1
    · subst h1
      exact Or.inl (List.mem_reverse.mp hch)
    · rcases ih seg h1 ch hch with h2 | h2
      · simp at h2
      · right
        rw [chopSep_eq_append _ _ _ h]
        exact List.mem_append_right _ h2
  | case3 acc c rest h ih =>
    intro seg hseg ch hch
    rw [splitGo_cons_none _ _ _ _ _ h] at hseg
    rcases ih seg hseg ch hch with h1 | h1
    · rcases List.mem_cons.mp h1 with h2 | h2
      · exact Or.inr (h2 ▸ List.mem_cons_self _ _)
      · exact Or.inl h2
    · exact Or.inr (List.mem_cons_of_mem _ h1)

/-- Every character of every segment of a string comes from that string. -/
theorem segmentsOf_chars (sep s seg : Str) (hseg : seg ∈ segmentsOf sep s) :
    ∀ ch ∈ seg, ch ∈ s := by
  intro ch hch
  cases sep with
  | nil =>
    simp only [segmentsOf, List.mem_singleton] at hseg
    exact hseg ▸ hch
  | cons s0 srest =>
    simp only [segmentsOf] at hseg
    rcases splitGo_chars s0 srest [] s seg hseg ch hch with h | h
    · simp at h
    · exact h

/-! ### Facts about the character matcher -/

/-- Unfolding `matches_glob`: empty pattern. -/
theorem matches_glob_nil_pat (c : Str) :
    matches_glob [] c = some (decide (c = [])) := by
  rw [matches_glob]

/-- Unfolding `matches_glob`: non-empty pattern, empty candidate. -/
theorem matches_glob_nil_cand (p0 : Char) (prest : Str) :
    matches_glob (p0 :: prest) [] = some (decide (p0 :: prest = ['*'])) := by
  rw [matches_glob]

/-- Unfolding `matches_glob`: wildcard head, non-empty candidate. -/
theorem matches_glob_star (prest : Str) (c0 : Char) (crest : Str) :
    matches_glob ('*' :: prest) (c0 :: crest) =
      match matches_glob prest (c0 :: crest) with
      | none => none
      | some true => some true
      | some false =>
        if c0.utf8Size = 1 then matches_glob ('*' :: prest) crest else none := by
  rw [matches_glob]
  simp

/-- Unfolding `matches_glob`: equal non-wildcard heads. -/
theorem matches_glob_eq_head (p0 : Char) (prest crest : Str) (hne : p0 ≠ '*') :
    matches_glob (p0 :: prest) (p0 :: crest) =
      if p0.utf8Size = 1 then matches_glob prest crest else none := by
  rw [matches_glob]
  by_cases h : p0.utf8Size = 1 <;> simp [hne, h]

/-- Unfolding `matches_glob`: unequal heads, pattern head not the wildcard. -/
theorem matches_glob_ne_head (p0 c0 : Char) (prest crest : Str)
    (hne : p0 ≠ '*') (hne2 : p0 ≠ c0) :
    matches_glob (p0 :: prest) (c0 :: crest) = some false := by
  rw [matches_glob]
  simp [hne, hne2]

/-- On strings made of one-byte characters the character matcher never
panics: byte slicing always lands on character boundaries. -/
theorem matches_glob_total : ∀ (p c : Str), OneByte p → OneByte c →
    ∃ b, matches_glob p c = some b := by
  intro p c
  induction p, c using matches_glob.induct with
  | case1 candidate =>
    intro _ _
    exact ⟨_, matches_glob_nil_pat candidate⟩
  | case2 p0 prest =>
    intro _ _
    exact ⟨_, matches_glob_nil_cand p0 prest⟩
  | case3 prest c0 crest h ih =>
    intro hp hc
    have hpr : OneByte prest := fun ch hch => hp ch (List.mem_cons_of_mem _ hch)
    rcases ih hpr hc with ⟨b, hb⟩
    rw [h] at hb
    exact absurd hb (by simp)
  | case4 prest c0 crest h ih =>
    intro hp hc
    exact ⟨true, by rw [matches_glob_star, h]⟩
  | case5 prest c0 crest h hc0 ih1 ih2 =>
    intro hp hc
    have hcr : OneByte crest := fun ch hch => hc ch (List.mem_cons_of_mem _ hch)
    rcases ih2 hp hcr with ⟨b, hb⟩
    exact ⟨b, by rw [matches_glob_star, h, if_pos hc0]; exact hb⟩
  | case6 prest c0 crest h hc0 ih =>
    intro hp hc
    exact absurd (hc c0 (List.mem_cons_self _ _)) hc0
  | case7 prest c0 crest h1 h2 h3 ih =>
    intro hp hc
    have hpr : OneByte prest := fun ch hch => hp ch (List.mem_cons_of_mem _ hch)
    have hcr : OneByte crest := fun ch hch => hc ch (List.mem_cons_of_mem _ hch)
    rcases ih hpr hcr with ⟨b, hb⟩
    exact ⟨b, by rw [matches_glob_eq_head _ _ _ h2, if_pos h1]; exact hb⟩
  | case8 prest c0 crest h1 h2 h3 =>
    intro hp hc
    exact absurd h3 h1
  | case9 prest c0 crest h1 h2 =>
    intro hp hc
    exact absurd (hp c0 (List.mem_cons_self _ _)) h2
  | case10 p0 prest c0 crest h1 h2 =>
    intro hp hc
    exact ⟨false, matches_glob_ne_head _ _ _ _ h1 h2⟩

/-- Auxiliary strong-induction form of glob reflexivity: a pattern of
one-byte characters matches itself. -/
theorem matches_glob_self_aux : ∀ (n : Nat) (p : Str), p.length ≤ n → OneByte p →
    matches_glob p p = some true := by
  intro n
  induction n with
  | zero =>
    intro p hlen _
    have hp : p = [] := by
      cases p with
      | nil => rfl
      | cons a r => simp at hlen
    subst hp
    simp [matches_glob_nil_pat]
  | succ n ih =>
    intro p hlen hp
    cases p with
    | nil => simp [matches_glob_nil_pat]
    | cons p0 r =>
      have hr : OneByte r := fun ch hch => hp ch (List.mem_cons_of_mem _ hch)
      have hp0 : p0.utf8Size = 1 := hp p0 (List.mem_cons_self _ _)
      have hrlen : r.length ≤ n := by
        simp only [List.length_cons] at hlen
        omega
      by_cases hstar : p0 = '*'
      · subst hstar
        rcases matches_glob_total r ('*' :: r) hr hp with ⟨b, hb⟩
        cases b with
        | true => rw [matches_glob_star, hb]
        | false =>
          rw [matches_glob_star, hb]
          simp only [show ('*').utf8Size = 1 from rfl, if_pos]
          cases r with
          | nil => simp [matches_glob_nil_cand]
          | cons r0 rrest =>
            rw [matches_glob_star, ih (r0 :: rrest) hrlen hr]
      · rw [matches_glob_eq_head _ _ _ hstar, if_pos hp0]
        exact ih r hrlen hr

/-- A pattern of one-byte characters matches itself in the character
matcher. -/
theorem matches_glob_self (p : Str) (hp : OneByte p) : matches_glob p p = some true :=
  matches_glob_self_aux p.length p le_rfl hp

/-! ### Facts about the segment matcher -/

/-- Unfolding `matches_segments`: empty pattern. -/
theorem matches_segments_nil_pat (cs : List Str) :
    matches_segments [] cs = some (decide (cs = [])) := by
  rw [matches_segments]

/-- Unfolding `matches_segments`: non-empty pattern, empty candidate. -/
theorem matches_segments_nil_cand (p0 : Str) (prest : List Str) :
    matches_segments (p0 :: prest) [] = some (decide (prest = [] ∧ p0 = ['*', '*'])) := by
  rw [matches_segments]

/-- Unfolding `matches_segments`: all-remaining marker head. -/
theorem matches_segments_marker (prest : List Str) (c0 : Str) (crest : List Str) :
    matches_segments (['*', '*'] :: prest) (c0 :: crest) =
      match matches_segments prest (c0 :: crest) with
      | none => none
      | some true => some true
      | some false => matches_segments (['*', '*'] :: prest) crest := by
  rw [matches_segments]
  simp

/-- Unfolding `matches_segments`: wildcard-containing head that is not the
marker delegates to the character matcher on one candidate segment. -/
theorem matches_segments_glob (p0 : Str) (prest : List Str) (c0 : Str) (crest : List Str)
    (hm : p0 ≠ ['*', '*']) (hw : '*' ∈ p0) :
    matches_segments (p0 :: prest) (c0 :: crest) =
      match matches_glob p0 c0 with
      | none => none
      | some false => some false
      | some true => matches_segments prest crest := by
  rw [matches_segments]
  simp [hm, hw]

/-- Unfolding `matches_segments`: equal wildcard-free heads. -/
theorem matches_segments_lit_eq (p0 : Str) (prest crest : List Str)
    (hw : '*' ∉ p0) :
    matches_segments (p0 :: prest) (p0 :: crest) = matches_segments prest crest := by
  have hm : p0 ≠ ['*', '*'] := by
    intro h
    exact hw (h ▸ List.mem_cons_self _ _)
  rw [matches_segments]
  simp [hm, hw]

/-- Unfolding `matches_segments`: unequal heads, the pattern head wildcard
free. -/
theorem matches_segments_lit_ne (p0 : Str) (prest : List Str) (c0 : Str) (crest : List Str)
    (hw : '*' ∉ p0) (hne : p0 ≠ c0) :
    matches_segments (p0 :: prest) (c0 :: crest) = some false := by
  have hm : p0 ≠ ['*', '*'] := by
    intro h
    exact hw (h ▸ List.mem_cons_self _ _)
  rw [matches_segments]
  simp [hm, hw, hne]

/-- On segments made of one-byte characters the segment matcher never
panics. -/
theorem matches_segments_total : ∀ (ps cs : List Str),
    (∀ s ∈ ps, OneByte s) → (∀ s ∈ cs, OneByte s) →
    ∃ b, matches_segments ps cs = some b := by
  intro ps cs
  induction ps, cs using matches_segments.induct with
  | case1 cs =>
    intro _ _
    exact ⟨_, matches_segments_nil_pat cs⟩
  | case2 p0 prest =>
    intro _ _
    exact ⟨_, matches_segments_nil_cand p0 prest⟩
  | case3 prest c0 crest h ih =>
    intro hp hc
    have hpr : ∀ s ∈ prest, OneByte s := fun s hs => hp s (List.mem_cons_of_mem _ hs)
    rcases ih hpr hc with ⟨b, hb⟩
    rw [h] at hb
    exact absurd hb (by simp)
  | case4 prest c0 crest h ih =>
    intro hp hc
    exact ⟨true, by rw [matches_segments_marker, h]⟩
  | case5 prest c0 crest h ih1 ih2 =>
    intro hp hc
    have hcr : ∀ s ∈ crest, OneByte s := fun s hs => hc s (List.mem_cons_of_mem _ hs)
    rcases ih2 hp hcr with ⟨b, hb⟩
    exact ⟨b, by rw [matches_segments_marker, h]; exact hb⟩
  | case6 p0 prest c0 crest hm hw h =>
    intro hp hc
    rcases matches_glob_total p0 c0 (hp p0 (List.mem_cons_self _ _))
      (hc c0 (List.mem_cons_self _ _)) with ⟨b, hb⟩
    rw [h] at hb
    exact absurd hb (by simp)
  | case7 p0 prest c0 crest hm hw h =>
    intro hp hc
    exact ⟨false, by rw [matches_segments_glob _ _ _ _ hm hw, h]⟩
  | case8 p0 prest c0 crest hm hw h ih =>
    intro hp hc
    have hpr : ∀ s ∈ prest, OneByte s := fun s hs => hp s (List.mem_cons_of_mem _ hs)
    have hcr : ∀ s ∈ crest, OneByte s := fun s hs => hc s (List.mem_cons_of_mem _ hs)
    rcases ih hpr hcr with ⟨b, hb⟩
    exact ⟨b, by rw [matches_segments_glob _ _ _ _ hm hw, h]; exact hb⟩
  | case9 prest c0 crest hm hw ih =>
    intro hp hc
    have hpr : ∀ s ∈ prest, OneByte s := fun s hs => hp s (List.mem_cons_of_mem _ hs)
    have hcr : ∀ s ∈ crest, OneByte s := fun s hs => hc s (List.mem_cons_of_mem _ hs)
    rcases ih hpr hcr with ⟨b, hb⟩
    exact ⟨b, by rw [matches_segments_lit_eq _ _ _ hw]; exact hb⟩
  | case10 p0 prest c0 crest hm hw hne =>
    intro hp hc
    exact ⟨false, matches_segments_lit_ne _ _ _ _ hw hne⟩

/-- A pattern consisting of the all-remaining marker alone accepts every
candidate-segment sequence, of any length including zero. -/
theorem matches_segments_marker_all : ∀ (cs : List Str),
    matches_segments [['*', '*']] cs = some true := by
  intro cs
  induction cs with
  | nil => simp [matches_segments_nil_cand]
  | cons c0 crest ih =>
    rw [matches_segments_marker, matches_segments_nil_pat]
    simp [ih]

/-- With a wildcard-free pattern-segment sequence, segment matching is
exactly element-wise equality of the two sequences. -/
theorem matches_segments_literal : ∀ (ps cs : List Str), (∀ s ∈ ps, '*' ∉ s) →
    matches_segments ps cs = some (decide (ps = cs)) := by
  intro ps
  induction ps with
  | nil =>
    intro cs _
    rw [matches_segments_nil_pat]
    simp [eq_comm]
  | cons p0 prest ih =>
    intro cs hps
    have hw : '*' ∉ p0 := hps p0 (List.mem_cons_self _ _)
    have hm : p0 ≠ ['*', '*'] := fun h => hw (h ▸ List.mem_cons_self _ _)
    have hrest : ∀ s ∈ prest, '*' ∉ s := fun s hs => hps s (List.mem_cons_of_mem _ hs)
    cases cs with
    | nil =>
      rw [matches_segments_nil_cand]
      simp [hm]
    | cons c0 crest =>
      by_cases he : p0 = c0
      · subst he
        rw [matches_segments_lit_eq _ _ _ hw, ih crest hrest]
        simp
      · rw [matches_segments_lit_ne _ _ _ _ hw he]
        simp [he]

/-- Auxiliary strong-induction form of segment-level reflexivity: a
sequence of segments of one-byte characters matches itself. -/
theorem matches_segments_self_aux : ∀ (n : Nat) (ss : List Str), ss.length ≤ n →
    (∀ s ∈ ss, OneByte s) → matches_segments ss ss = some true := by
  intro n
  induction n with
  | zero =>
    intro ss hlen _
    have hss : ss = [] := by
      cases ss with
      | nil => rfl
      | cons a r => simp at hlen
    subst hss
    simp [matches_segments_nil_pat]
  | succ n ih =>
    intro ss hlen hss
    cases ss with
    | nil => simp [matches_segments_nil_pat]
    | cons s0 rest =>
      have hrest : ∀ s ∈ rest, OneByte s := fun s hs => hss s (List.mem_cons_of_mem _ hs)
      have hs0 : OneByte s0 := hss s0 (List.mem_cons_self _ _)
      have hrlen : rest.length ≤ n := by
        simp only [List.length_cons] at hlen
        omega
      by_cases hm : s0 = ['*', '*']
      · subst hm
        rcases matches_segments_total rest (['*', '*'] :: rest) hrest hss with ⟨b, hb⟩
        cases b with
        | true => rw [matches_segments_marker, hb]
        | false =>
          rw [matches_segments_marker, hb]
          cases rest with
          | nil => simp [matches_segments_nil_cand]
          | cons r0 rrest =>
            rw [matches_segments_marker, ih (r0 :: rrest) hrlen hrest]
      · by_cases hw : '*' ∈ s0
        · rw [matches_segments_glob _ _ _ _ hm hw, matches_glob_self s0 hs0]
          exact ih rest hrlen hrest
        · rw [matches_segments_lit_eq _ _ _ hw]
          exact ih rest hrlen hrest

/-- A sequence of segments of one-byte characters matches itself. -/
theorem matches_segments_self (ss : List Str) (h : ∀ s ∈ ss, OneByte s) :
    matches_segments ss ss = some true :=
  matches_segments_self_aux ss.length ss le_rfl h

/-- Without an all-remaining marker every pattern segment consumes exactly
one candidate segment, so sequences of different lengths never match (the
matcher returns `false`, or panics on multi-byte wildcard segments, but
never accepts). -/
theorem matches_segments_len_ne : ∀ (ps cs : List Str), ['*', '*'] ∉ ps →
    ps.length ≠ cs.length → matches_segments ps cs ≠ some true := by
  intro ps
  induction ps with
  | nil =>
    intro cs _ hlen
    rw [matches_segments_nil_pat]
    have : cs ≠ [] := by
      intro h
      subst h
      exact hlen rfl
    simp [this]
  | cons p0 prest ih =>
    intro cs hnm hlen
    have hm : p0 ≠ ['*', '*'] := fun h => hnm (h ▸ List.mem_cons_self _ _)
    have hnm' : ['*', '*'] ∉ prest := fun h => hnm (List.mem_cons_of_mem _ h)
    cases cs with
    | nil =>
      rw [matches_segments_nil_cand]
      simp [hm]
    | cons c0 crest =>
      have hlen' : prest.length ≠ crest.length := by
        simp only [List.length_cons] at hlen
        omega
      by_cases hw : '*' ∈ p0
      · rw [matches_segments_glob _ _ _ _ hm hw]
        cases hg : matches_glob p0 c0 with
        | none => simp
        | some b =>
          cases b with
          | false => simp
          | true => exact ih crest hnm' hlen'
      · by_cases he : p0 = c0
        · subst he
          rw [matches_segments_lit_eq _ _ _ hw]
          exact ih crest hnm' hlen'
        · rw [matches_segments_lit_ne _ _ _ _ hw he]
          simp

/-! ### Termination bounds: the recursions finish within combined-length
many steps, because every recursive call strictly decreases the combined
length of the pattern and candidate remainders -/

/-- Any fuel exceeding the combined length of the two remainders lets the
fuel-bounded character matcher finish, with the same verdict as
`matches_glob`. -/
theorem matchesGlobFuel_spec : ∀ (fuel : Nat) (p c : Str), p.length + c.length < fuel →
    matchesGlobFuel fuel p c = some (matches_glob p c) := by
  intro fuel
  induction fuel with
  | zero =>
    intro p c h
    omega
  | succ n ih =>
    intro p c h
    cases p with
    | nil => simp [matchesGlobFuel, matches_glob_nil_pat]
    | cons p0 prest =>
      cases c with
      | nil => simp [matchesGlobFuel, matches_glob_nil_cand]
      | cons c0 crest =>
        simp only [List.length_cons] at h
        by_cases hstar : p0 = '*'
        · subst hstar
          have h1 : prest.length + (c0 :: crest).length < n := by
            simp only [List.length_cons]
            omega
          have h2 : ('*' :: prest).length + crest.length < n := by
            simp only [List.length_cons]
            omega
          rw [matches_glob_star]
          simp only [matchesGlobFuel, if_pos rfl, ih prest (c0 :: crest) h1]
          cases hg : matches_glob prest (c0 :: crest) with
          | none => rfl
          | some b =>
            cases b with
            | true => rfl
            | false =>
              by_cases hsz : c0.utf8Size = 1
              · rw [if_pos hsz, if_pos hsz, ih ('*' :: prest) crest h2]
                simp [hsz]
              · rw [if_neg hsz, if_neg hsz]
                simp [hsz]
        · by_cases he : p0 = c0
          · subst he
            have h1 : prest.length + crest.length < n := by omega
            rw [matches_glob_eq_head _ _ _ hstar]
            simp only [matchesGlobFuel, if_neg hstar, if_pos rfl]
            by_cases hsz : p0.utf8Size = 1
            · rw [if_pos hsz, if_pos hsz, if_pos hsz, ih prest crest h1]
              simp
            · rw [if_neg hsz, if_neg hsz]
              simp
          · rw [matches_glob_ne_head _ _ _ _ hstar he]
            simp [matchesGlobFuel, hstar, he]

/-- Any fuel exceeding the combined number of remaining segments lets the
fuel-bounded segment matcher finish, with the same verdict as
`matches_segments`. -/
theorem matchesSegmentsFuel_spec : ∀ (fuel : Nat) (ps cs : List Str),
    ps.length + cs.length < fuel →
    matchesSegmentsFuel fuel ps cs = some (matches_segments ps cs) := by
  intro fuel
  induction fuel with
  | zero =>
    intro ps cs h
    omega
  | succ n ih =>
    intro ps cs h
    cases ps with
    | nil => simp [matchesSegmentsFuel, matches_segments_nil_pat]
    | cons p0 prest =>
      cases cs with
      | nil => simp [matchesSegmentsFuel, matches_segments_nil_cand]
      | cons c0 crest =>
        simp only [List.length_cons] at h
        by_cases hm : p0 = ['*', '*']
        · subst hm
          have h1 : prest.length + (c0 :: crest).length < n := by
            simp only [List.length_cons]
            omega
          have h2 : (['*', '*'] :: prest).length + crest.length < n := by
            simp only [List.length_cons]
            omega
          rw [matches_segments_marker]
          simp only [matchesSegmentsFuel, if_pos rfl, ih prest (c0 :: crest) h1]
          cases hg : matches_segments prest (c0 :: crest) with
          | none => rfl
          | some b =>
            cases b with
            | true => rfl
            | false =>
              rw [ih (['*', '*'] :: prest) crest h2]
              simp
        · by_cases hw : '*' ∈ p0
          · have h1 : prest.length + crest.length < n := by omega
            rw [matches_segments_glob _ _ _ _ hm hw]
            simp only [matchesSegmentsFuel, if_neg hm, if_pos hw]
            cases hg : matches_glob p0 c0 with
            | none => rfl
            | some b =>
              cases b with
              | false => rfl
              | true => rw [ih prest crest h1]
          · by_cases he : p0 = c0
            · subst he
              have h1 : prest.length + crest.length < n := by omega
              rw [matches_segments_lit_eq _ _ _ hw]
              simp only [matchesSegmentsFuel, if_neg hm, if_neg hw, if_pos rfl]
              exact ih prest crest h1
            · rw [matches_segments_lit_ne _ _ _ _ hw he]
              simp [matchesSegmentsFuel, hm, hw, he]

/-! ### The segmenter seen through `segmentsOf` -/

/-- An empty separator disables splitting: the whole string is one segment,
even when it is empty. -/
theorem segmentsOf_nil_sep (s : Str) : segmentsOf [] s = [s] := rfl

/-- For a non-empty separator, joining the segments back with the separator
restores the original string: splitting preserves every character, every
empty segment and the order of segments. -/
theorem segmentsOf_join (sep s : Str) (h : sep ≠ []) :
    joinSep sep (segmentsOf sep s) = s := by
  cases sep with
  | nil => exact absurd rfl h
  | cons s0 srest =>
    have := splitGo_join s0 srest [] s
    simpa [segmentsOf] using this

/-- For a non-empty separator, the empty string yields a single empty
segment. -/
theorem segmentsOf_empty_string (sep : Str) (h : sep ≠ []) :
    segmentsOf sep [] = [[]] := by
  cases sep with
  | nil => exact absurd rfl h
  | cons s0 srest => simp [segmentsOf, splitGo_nil]

/-- A leading separator yields a leading empty segment, and splitting then
continues on the rest of the string; iterated, this also covers doubled
separators. -/
theorem segmentsOf_sep_append (sep s : Str) (h : sep ≠ []) :
    segmentsOf sep (sep ++ s) = [] :: segmentsOf sep s := by
  cases sep with
  | nil => exact absurd rfl h
  | cons s0 srest =>
    have hch : chopSep (s0 :: srest) (s0 :: (srest ++ s)) = some s := by
      have := chopSep_self_append (s0 :: srest) s
      simpa using this
    simp only [segmentsOf, List.cons_append]
    rw [splitGo_cons_some _ _ _ _ _ _ hch]
    simp

/-- If the separator occurs nowhere in the scanned string, `splitGo` never
splits: the single segment is the accumulator followed by the string. -/
theorem splitGo_no_occurrence (s0 : Char) (srest : Str) :
    ∀ (acc s : Str), (¬ ∃ t u : Str, s = t ++ (s0 :: srest) ++ u) →
      splitGo s0 srest acc s = [acc.reverse ++ s] := by
  intro acc s
  induction acc, s using splitGo.induct s0 srest with
  | case1 acc =>
    intro _
    simp [splitGo_nil]
  | case2 acc c rest rem h ih =>
    intro hno
    exact absurd ⟨[], rem, by simpa using chopSep_eq_append _ _ _ h⟩ hno
  | case3 acc c rest h ih =>
    intro hno
    have hno2 : ¬ ∃ t u : Str, rest = t ++ (s0 :: srest) ++ u := by
      rintro ⟨t, u, htu⟩
      exact hno ⟨c :: t, u, by simp [htu]⟩
    rw [splitGo_cons_none _ _ _ _ _ h, ih hno2]
    simp

/-- Splitting at a leftmost occurrence of the separator: when no occurrence
of the separator starts before position `pre.length` in
`pre ++ sep ++ post`, the scan emits the accumulator extended by `pre` and
restarts after that occurrence. -/
theorem splitGo_leftmost (s0 : Char) (srest : Str) :
    ∀ (pre acc post : Str),
      (∀ t u : Str, pre ++ (s0 :: srest) ++ post = t ++ (s0 :: srest) ++ u →
        pre.length ≤ t.length) →
      splitGo s0 srest acc (pre ++ (s0 :: srest) ++ post) =
        (acc.reverse ++ pre) :: splitGo s0 srest [] post := by
  intro pre
  induction pre with
  | nil =>
    intro acc post _
    have hch : chopSep (s0 :: srest) (s0 :: (srest ++ post)) = some post := by
      simpa using chopSep_self_append (s0 :: srest) post
    show splitGo s0 srest acc (s0 :: (srest ++ post)) = (acc.reverse ++ []) :: _
    rw [splitGo_cons_some _ _ _ _ _ _ hch]
    simp
  | cons p pre2 ih =>
    intro acc post hmin
    have hch : chopSep (s0 :: srest) (p :: (pre2 ++ (s0 :: srest) ++ post)) = none := by
      cases hc : chopSep (s0 :: srest) (p :: (pre2 ++ (s0 :: srest) ++ post)) with
      | none => rfl
      | some rem =>
        have heq := chopSep_eq_append _ _ _ hc
        have h2 := hmin [] rem (by simpa using heq)
        simp at h2
    have hmin2 : ∀ t u : Str, pre2 ++ (s0 :: srest) ++ post = t ++ (s0 :: srest) ++ u →
        pre2.length ≤ t.length := by
      intro t u htu
      have h2 := hmin (p :: t) u (by simp [htu])
      simp only [List.length_cons] at h2
      omega
    show splitGo s0 srest acc (p :: (pre2 ++ (s0 :: srest) ++ post)) = _
    rw [splitGo_cons_none _ _ _ _ _ hch, ih (p :: acc) post hmin2]
    simp

/-- No segment produced by `splitGo` contains an occurrence of the
separator, provided no occurrence starts inside the accumulated part (the
scanner has already rejected every position there). -/
theorem splitGo_segments_sep_free (s0 : Char) (srest : Str) :
    ∀ (acc s : Str),
      (∀ t u : Str, acc.reverse ++ s = t ++ (s0 :: srest) ++ u → acc.length ≤ t.length) →
      ∀ seg ∈ splitGo s0 srest acc s, ¬ ∃ t u : Str, seg = t ++ (s0 :: srest) ++ u := by
  intro acc s
  induction acc, s using splitGo.induct s0 srest with
  | case1 acc =>
    intro hinv seg hseg
    simp only [splitGo_nil, List.mem_singleton] at hseg
    subst hseg
    rintro ⟨t, u, htu⟩
    have h2 := hinv t u (by simp [htu])
    have h3 := congrArg List.length htu
    simp only [List.length_append, List.length_reverse, List.length_cons] at h3
    omega
  | case2 acc c rest rem h ih =>
    intro hinv seg hseg
    rw [splitGo_cons_some _ _ _ _ _ _ h] at hseg
    rcases List.mem_cons.mp hseg with h1 | h1
    · subst h1
      rintro ⟨t, u, htu⟩
      have h2 := hinv t (u ++ (c :: rest)) (by simp [htu])
      have h3 := congrArg List.length htu
      simp only [List.length_append, List.length_reverse, List.length_cons] at h3
      omega
    · refine ih ?_ seg h1
      intro t u _
      simp
  | case3 acc c rest h ih =>
    intro hinv seg hseg
    rw [splitGo_cons_none _ _ _ _ _ h] at hseg
    refine ih ?_ seg hseg
    intro t u htu
    have hsame : acc.reverse ++ (c :: rest) = t ++ ((s0 :: srest) ++ u) := by
      simpa [List.append_assoc] using htu
    have h2 := hinv t u (by simpa [List.append_assoc] using htu)
    rcases Nat.lt_or_ge acc.length t.length with hlt | hge
    · simp only [List.length_cons]
      omega
    · have heq : acc.length = t.length := le_antisymm h2 hge
      rcases List.append_inj hsame (by simp [heq]) with ⟨ht, hrest⟩
      have hch : chopSep (s0 :: srest) (c :: rest) = some u := by
        rw [hrest]
        exact chopSep_self_append _ _
      rw [hch] at h
      exact absurd h (by simp)

/-- For a non-empty separator, a string in which the separator occurs
nowhere is returned as a single segment. -/
theorem segmentsOf_no_occurrence (sep s : Str) (h : sep ≠ [])
    (hno : ¬ ∃ t u : Str, s = t ++ sep ++ u) : segmentsOf sep s = [s] := by
  cases sep with
  | nil => exact absurd rfl h
  | cons s0 srest => simpa [segmentsOf] using splitGo_no_occurrence s0 srest [] s hno

/-- The segmenter splits at the leftmost occurrence of the separator and
continues on the remainder after it: together with
`segmentsOf_no_occurrence` and `segmentsOf_empty_string` this characterizes
splitting on every (leftmost, non-overlapping) occurrence, preserving order
and empty segments. -/
theorem segmentsOf_leftmost (sep pre post : Str) (h : sep ≠ [])
    (hmin : ∀ t u : Str, pre ++ sep ++ post = t ++ sep ++ u → pre.length ≤ t.length) :
    segmentsOf sep (pre ++ sep ++ post) = pre :: segmentsOf sep post := by
  cases sep with
  | nil => exact absurd rfl h
  | cons s0 srest => simpa [segmentsOf] using splitGo_leftmost s0 srest pre [] post hmin

/-- No segment produced by the segmenter contains an occurrence of the
(non-empty) separator: every interior occurrence really is split on. -/
theorem segmentsOf_sep_free (sep s seg : Str) (h : sep ≠ [])
    (hseg : seg ∈ segmentsOf sep s) : ¬ ∃ t u : Str, seg = t ++ sep ++ u := by
  cases sep with
  | nil => exact absurd rfl h
  | cons s0 srest =>
    refine splitGo_segments_sep_free s0 srest [] s ?_ seg (by simpa [segmentsOf] using hseg)
    intro t u _
    simp

/-! ### The claims -/

/-- C1, counterexample: `matches` is not total over all string inputs — with
the wildcard pattern `"*"` and the multi-byte candidate `"é"`, the byte
slice `&candidate[1..]` in the character matcher falls inside the two-byte
character `'é'` and the call panics instead of returning a boolean. -/
theorem matches_multibyte_panic :
    «matches» ['*'] ['é'] [] = none := by
  simp [«matches», segmentsOf, matches_segments, matches_glob, Char.utf8Size]

/-- C1 (amended): `matches` terminates normally and returns a boolean on
every input whose pattern and candidate consist of one-byte (ASCII)
characters, for any separator; on such inputs no byte slice can miss a
character boundary.  (On multi-byte characters reaching the character
matcher the byte-indexed slicing can panic,
theorem `matches_multibyte_panic`.) -/
theorem matches_total_of_oneByte (p c sep : Str) (hp : OneByte p) (hc : OneByte c) :
    ∃ b, «matches» p c sep = some b := by
  apply matches_segments_total
  · intro s hs ch hch
    exact hp ch (segmentsOf_chars sep p s hs ch hch)
  · intro s hs ch hch
    exact hc ch (segmentsOf_chars sep c s hs ch hch)

/-- C1, witness at pattern `"a*"`, candidate `"ab"`, separator `"/"`. -/
theorem matches_total_of_oneByte_witness :
    OneByte ['a', '*'] ∧ OneByte ['a', 'b'] ∧
      ∃ b, «matches» ['a', '*'] ['a', 'b'] ['/'] = some b :=
  ⟨by decide, by decide, matches_total_of_oneByte _ _ _ (by decide) (by decide)⟩

/-- C2: with an empty candidate-segment sequence and a non-empty
pattern-segment sequence, the segment matcher accepts exactly when the
remaining pattern is the single all-remaining marker segment `"**"`; in
particular `matches("a/b/c/**", "a/b/c", "/")` is true. -/
theorem empty_candidate_segments_iff_trailing_marker :
    (∀ ps : List Str, ps ≠ [] →
      (matches_segments ps [] = some true ↔ ps = [['*', '*']])) ∧
    «matches» ['a', '/', 'b', '/', 'c', '/', '*', '*'] ['a', '/', 'b', '/', 'c'] ['/'] =
      some true := by
  constructor
  · intro ps hps
    cases ps with
    | nil => exact absurd rfl hps
    | cons p0 prest =>
      rw [matches_segments_nil_cand]
      simp only [Option.some.injEq, decide_eq_true_eq]
      constructor
      · rintro ⟨h1, h2⟩
        rw [h1, h2]
      · intro h
        injection h with h1 h2
        exact ⟨h2, h1⟩
  · simp [«matches», segmentsOf, splitGo, chopSep, matches_segments, matches_glob]

/-- C2, witness: the accepting side of the equivalence at the one-segment
pattern `["**"]`. -/
theorem empty_candidate_segments_iff_trailing_marker_witness :
    ([['*', '*']] : List Str) ≠ [] ∧
      (matches_segments [['*', '*']] [] = some true ↔ [['*', '*']] = [['*', '*']]) :=
  ⟨by decide, empty_candidate_segments_iff_trailing_marker.1 _ (by decide)⟩

/-- C3: a pattern segment acts as the multi-segment all-remaining marker
exactly when it is the two-character string `"**"`: any other segment
containing a wildcard is matched by the character matcher against exactly
one candidate segment (and the match then continues on the two tails),
while the pattern `["**"]` alone absorbs candidate sequences of any
length. -/
theorem marker_only_when_exactly_two_stars :
    (∀ (p0 : Str) (prest : List Str) (c0 : Str) (crest : List Str),
      '*' ∈ p0 → p0 ≠ ['*', '*'] →
      (matches_segments (p0 :: prest) (c0 :: crest) = some true ↔
        matches_glob p0 c0 = some true ∧ matches_segments prest crest = some true)) ∧
    (∀ cs : List Str, matches_segments [['*', '*']] cs = some true) := by
  constructor
  · intro p0 prest c0 crest hw hm
    rw [matches_segments_glob _ _ _ _ hm hw]
    cases hg : matches_glob p0 c0 with
    | none => simp
    | some b =>
      cases b with
      | false => simp
      | true => simp
  · exact matches_segments_marker_all

/-- C3, witness at the wildcard (non-marker) segment `"a**"` against the
single candidate segment `"axy"`. -/
theorem marker_only_when_exactly_two_stars_witness :
    ('*' ∈ ['a', '*', '*']) ∧ (['a', '*', '*'] : Str) ≠ ['*', '*'] ∧
      (matches_segments [['a', '*', '*']] [['a', 'x', 'y']] = some true ↔
        matches_glob ['a', '*', '*'] ['a', 'x', 'y'] = some true ∧
          matches_segments [] [] = some true) :=
  ⟨by decide, by decide,
    marker_only_when_exactly_two_stars.1 _ _ _ _ (by decide) (by decide)⟩

/-- C4, counterexample: with an empty separator the result does NOT always
equal the character matcher's verdict — on pattern `"**"` and the empty
candidate, `matches` routes through the segment matcher, whose marker
branch accepts (`pattern.len() == 1 && pattern[0] == "**"`), while the
character matcher rejects (`"**" != "*"`). -/
theorem empty_sep_not_charwise_counterexample :
    «matches» ['*', '*'] [] [] = some true ∧ matches_glob ['*', '*'] [] = some false := by
  constructor
  · simp [«matches», segmentsOf, matches_segments, matches_glob]
  · simp [matches_glob_nil_cand]

/-- C4 (amended): with an empty separator both strings are compared as
single opaque segments by the *segment* matcher.  This coincides with the
character matcher's verdict whenever the pattern contains a wildcard and is
not exactly `"**"`; a pattern of exactly `"**"` is the all-remaining marker
and accepts every candidate (unlike the character matcher, which rejects
e.g. the empty candidate); and a wildcard-free pattern is compared by plain
string equality, without the character matcher's byte-wise walk. -/
theorem empty_sep_single_segment :
    (∀ p c : Str, '*' ∈ p → p ≠ ['*', '*'] → «matches» p c [] = matches_glob p c) ∧
    (∀ c : Str, «matches» ['*', '*'] c [] = some true) ∧
    (∀ p c : Str, '*' ∉ p → «matches» p c [] = some (decide (p = c))) := by
  refine ⟨?_, ?_, ?_⟩
  · intro p c hw hm
    show matches_segments [p] [c] = matches_glob p c
    rw [matches_segments_glob _ _ _ _ hm hw]
    cases hg : matches_glob p c with
    | none => rfl
    | some b =>
      cases b with
      | false => rfl
      | true => rw [matches_segments_nil_pat]; simp
  · intro c
    exact matches_segments_marker_all [c]
  · intro p c hw
    show matches_segments [p] [c] = some (decide (p = c))
    rw [matches_segments_literal [p] [c] (by simpa using hw)]
    simp

/-- C4, witness at the wildcard pattern `"a*"` and candidate `"ab"` with the
empty separator. -/
theorem empty_sep_single_segment_witness :
    ('*' ∈ ['a', '*']) ∧ (['a', '*'] : Str) ≠ ['*', '*'] ∧
      «matches» ['a', '*'] ['a', 'b'] [] = matches_glob ['a', '*'] ['a', 'b'] :=
  ⟨by decide, by decide, empty_sep_single_segment.1 _ _ (by decide) (by decide)⟩

/-- C5: for wildcard-free pattern and candidate, matching with any
separator is exactly element-wise equality of their segment sequences. -/
theorem literal_matches_iff_segments_eq (P C sep : Str)
    (hP : '*' ∉ P) (hC : '*' ∉ C) :
    «matches» P C sep = some true ↔ segmentsOf sep P = segmentsOf sep C := by
  have hsegs : ∀ s ∈ segmentsOf sep P, '*' ∉ s := by
    intro s hs hmem
    exact hP (segmentsOf_chars sep P s hs '*' hmem)
  rw [«matches», matches_segments_literal _ _ hsegs]
  simp

/-- C5, witness at pattern `"a/b"`, candidate `"a/b"`, separator `"/"`. -/
theorem literal_matches_iff_segments_eq_witness :
    ('*' ∉ ['a', '/', 'b']) ∧
      («matches» ['a', '/', 'b'] ['a', '/', 'b'] ['/'] = some true ↔
        segmentsOf ['/'] ['a', '/', 'b'] = segmentsOf ['/'] ['a', '/', 'b']) :=
  ⟨by decide, literal_matches_iff_segments_eq _ _ _ (by decide) (by decide)⟩

/-- C6, counterexample: reflexivity fails on the code as claimed — the
pattern `"é*"` contains no `"**"` segment, yet `matches("é*", "é*", "")`
panics (the equal two-byte heads `'é'` are consumed by the byte slice
`&s[1..]`) instead of returning true. -/
theorem matches_refl_counterexample :
    (['*', '*'] ∉ segmentsOf [] ['é', '*']) ∧
      «matches» ['é', '*'] ['é', '*'] [] ≠ some true := by
  constructor
  · decide
  · have h : «matches» ['é', '*'] ['é', '*'] [] = none := by
      simp [«matches», segmentsOf, matches_segments, matches_glob, Char.utf8Size]
    simp [h]

/-- C6 (amended): reflexivity holds for every pattern of one-byte (ASCII)
characters that contains no all-remaining-marker segment:
`matches(P, P, sep)` is true. -/
theorem matches_refl_of_oneByte (P sep : Str) (hP : OneByte P)
    (hm : ['*', '*'] ∉ segmentsOf sep P) : «matches» P P sep = some true := by
  apply matches_segments_self
  intro s hs ch hch
  exact hP ch (segmentsOf_chars sep P s hs ch hch)

/-- C6, witness at the wildcard pattern `"a*"` with the empty separator. -/
theorem matches_refl_of_oneByte_witness :
    OneByte ['a', '*'] ∧ (['*', '*'] ∉ segmentsOf [] ['a', '*']) ∧
      «matches» ['a', '*'] ['a', '*'] [] = some true :=
  ⟨by decide, by decide, matches_refl_of_oneByte _ _ (by decide) (by decide)⟩

/-- C7: the character matcher accepts (non-empty pattern, empty candidate)
exactly when the remaining pattern is the single wildcard `"*"`; any other
pattern — in particular one ending in two or more consecutive wildcards —
rejects the empty candidate. -/
theorem glob_empty_candidate_iff (p : Str) (hp : p ≠ []) :
    matches_glob p [] = some true ↔ p = ['*'] := by
  cases p with
  | nil => exact absurd rfl hp
  | cons p0 prest =>
    rw [matches_glob_nil_cand]
    simp

/-- C7, witness at the two-wildcard pattern `"**"`, which therefore rejects
the empty candidate. -/
theorem glob_empty_candidate_iff_witness :
    (['*', '*'] : Str) ≠ [] ∧
      (matches_glob ['*', '*'] [] = some true ↔ ['*', '*'] = ['*']) :=
  ⟨by decide, glob_empty_candidate_iff _ (by decide)⟩

/-- C8: the segmenter — an empty separator yields the original string as a
single segment (even when empty).  A non-empty separator splits on every
occurrence: joining the segments back with the separator restores the
string (order and empty segments preserved, no characters lost); the empty
string yields one empty segment; a leading separator yields a leading empty
segment; a string in which the separator occurs nowhere is a single
segment; at a leftmost occurrence `pre ++ sep ++ post` the result is `pre`
followed by the split of `post` — so trailing and doubled separators
produce their empty segments — and no produced segment contains an
occurrence of the separator.  The last three conjuncts, with the
empty-string one, determine the segmenter uniquely as splitting at every
leftmost non-overlapping occurrence. -/
theorem segmenter_spec :
    (∀ s : Str, segmentsOf [] s = [s]) ∧
    (∀ sep s : Str, sep ≠ [] → joinSep sep (segmentsOf sep s) = s) ∧
    (∀ sep : Str, sep ≠ [] → segmentsOf sep [] = [[]]) ∧
    (∀ sep s : Str, sep ≠ [] → segmentsOf sep (sep ++ s) = [] :: segmentsOf sep s) ∧
    (∀ sep s : Str, sep ≠ [] → (¬ ∃ t u : Str, s = t ++ sep ++ u) →
      segmentsOf sep s = [s]) ∧
    (∀ sep pre post : Str, sep ≠ [] →
      (∀ t u : Str, pre ++ sep ++ post = t ++ sep ++ u → pre.length ≤ t.length) →
      segmentsOf sep (pre ++ sep ++ post) = pre :: segmentsOf sep post) ∧
    (∀ sep s seg : Str, sep ≠ [] → seg ∈ segmentsOf sep s →
      ¬ ∃ t u : Str, seg = t ++ sep ++ u) :=
  ⟨segmentsOf_nil_sep, segmentsOf_join, segmentsOf_empty_string, segmentsOf_sep_append,
    segmentsOf_no_occurrence, segmentsOf_leftmost, segmentsOf_sep_free⟩

/-- C8, witness: on the concrete string `"a/b"` the interior separator is
split on — the leftmost-occurrence conjunct applies with `pre = "a"`,
`post = "b"` — and a leading separator produces a leading empty segment. -/
theorem segmenter_spec_witness :
    (['/'] : Str) ≠ [] ∧
      segmentsOf ['/'] (['/'] ++ ['a']) = [] :: segmentsOf ['/'] ['a'] ∧
      segmentsOf ['/'] (['a'] ++ ['/'] ++ ['b']) = ['a'] :: segmentsOf ['/'] ['b'] :=
  ⟨by decide, segmenter_spec.2.2.2.1 ['/'] ['a'] (by decide),
    segmenter_spec.2.2.2.2.2.1 ['/'] ['a'] ['b'] (by decide)
      (by
        intro t u htu
        cases t with
        | nil => simp at htu
        | cons a as => simp)⟩

/-- C9, counterexample: matching is not total as a boolean-valued function —
on pattern `"*"` and candidate `"ñ"` the recursion terminates but aborts in
a panic (`none`) instead of yielding a boolean. -/
theorem matches_not_always_boolean :
    «matches» ['*'] ['ñ'] [] = none := by
  simp [«matches», segmentsOf, matches_segments, matches_glob, Char.utf8Size]

/-- C9 (amended): matching is deterministic and its two recursions
terminate, every recursive call strictly decreasing the combined length of
the pattern and candidate remainders: fuel equal to that combined length
(plus one) already suffices for the fuel-bounded variants to finish, with
the verdict of the unbounded functions (a boolean, or a panic on byte
slices that miss a character boundary). -/
theorem matcher_recursion_fuel_bound :
    (∀ (fuel : Nat) (p c : Str), p.length + c.length < fuel →
      matchesGlobFuel fuel p c = some (matches_glob p c)) ∧
    (∀ (fuel : Nat) (ps cs : List Str), ps.length + cs.length < fuel →
      matchesSegmentsFuel fuel ps cs = some (matches_segments ps cs)) :=
  ⟨matchesGlobFuel_spec, matchesSegmentsFuel_spec⟩

/-- C9, witness: fuel 3 suffices for the one-character pattern and
candidate. -/
theorem matcher_recursion_fuel_bound_witness :
    (['a'] : Str).length + (['b'] : Str).length < 3 ∧
      matchesGlobFuel 3 ['a'] ['b'] = some (matches_glob ['a'] ['b']) :=
  ⟨by decide, matcher_recursion_fuel_bound.1 3 ['a'] ['b'] (by decide)⟩

/-- C10, counterexample: when the marker-free pattern-segment sequence and
the candidate-segment sequence have different lengths the matcher does not
always return false — on the wildcard segment `"ü*"` against the two
segments `["üa", "b"]` the character matcher panics on the two-byte `'ü'`,
so nothing is returned at all. -/
theorem segments_length_mismatch_panic :
    (['*', '*'] ∉ ([['ü', '*']] : List Str)) ∧
      ([['ü', '*']] : List Str).length ≠ ([['ü', 'a'], ['b']] : List Str).length ∧
      matches_segments [['ü', '*']] [['ü', 'a'], ['b']] = none := by
  refine ⟨by decide, by decide, ?_⟩
  simp [matches_segments, matches_glob, Char.utf8Size]

/-- C10 (amended): for a pattern-segment sequence containing no `"**"`
segment, every pattern segment consumes exactly one candidate segment, so
when the two sequences have different lengths the segment matcher never
accepts: it returns false, except that it may panic instead on wildcard
segments with multi-byte characters. -/
theorem segments_length_mismatch_rejects (ps cs : List Str)
    (hm : ['*', '*'] ∉ ps) (hlen : ps.length ≠ cs.length) :
    matches_segments ps cs ≠ some true :=
  matches_segments_len_ne ps cs hm hlen

/-- C10, witness at the one-segment pattern `["a"]` against two candidate
segments. -/
theorem segments_length_mismatch_rejects_witness :
    (['*', '*'] ∉ ([['a']] : List Str)) ∧
      ([['a']] : List Str).length ≠ ([['a'], ['b']] : List Str).length ∧
      matches_segments [['a']] [['a'], ['b']] ≠ some true :=
  ⟨by decide, by decide,
    segments_length_mismatch_rejects _ _ (by decide) (by decide)⟩

end Hapolicy
